import Mathlib

/-!
Verification of the semantic compilation stage of the opuslang2 bridge-convention
compiler (source: `src/opuslang2/compile.py`).

The Python source is shallowly embedded below.  Pure dataclasses become Lean
structures, Python exceptions become an explicit `Except PyErr` result, and the
one source of nondeterminism (the random sort uniquifier drawn in
`Branch.all_conditions_sorted`) becomes an explicit oracle parameter
`uniq : Nat -> Nat` supplying the value drawn for the i-th list entry.
-/

namespace OpusLang

/-- Modelled from the spec: `ir.Suit` lives in the external `opus.lang.ir`
module (not part of this repository).  Section 3 of the spec describes it as a
denomination identifier — one of the four suits, no-trump, or the special
whole-hand "total points" marker written `@` — compared by identity of the
denomination and carrying a fixed canonical order (clubs < diamonds < hearts <
spades < no-trump). -/
inductive Suit where
  | C
  | D
  | H
  | S
  | NT
  | total
  deriving DecidableEq, Repr

/-- Modelled from the spec: the canonical denomination order of `ir.Suit`
(section 3: "a fixed canonical order"), as a rank function. -/
def suitRank : Suit → Nat
  | .C => 0
  | .D => 1
  | .H => 2
  | .S => 3
  | .NT => 4
  | .total => 5

/-- Python exceptions raised by `compile.py` (and by attribute access inside it). -/
inductive PyErr where
  | valueError (msg : String)
  | notImplementedError (msg : String)
  | attributeError
  | keyError
  | recursionError
  deriving DecidableEq, Repr

/-- `Bid` from `compile.py` (lines 18-28): a frozen, ordered dataclass with
fields `level`, `color` and `meta`, where `meta` is excluded from comparison
(`field(compare=False)`).  Metadata values are modelled as `Option Nat` tokens. -/
structure Bid where
  level : Nat
  color : Suit
  meta : Option Nat
  deriving DecidableEq, Repr

/-- Python `==` on `Bid`: the generated dataclass equality compares the tuple
`(level, color)` and skips `meta` (`compare=False`). -/
def bidEq (a b : Bid) : Bool :=
  a.level == b.level && a.color == b.color

/-- Python `<` on `Bid` (dataclass `order=True`): lexicographic on
`(level, color)`, the suit compared in the canonical denomination order. -/
def bidLtB (a b : Bid) : Bool :=
  a.level < b.level || (a.level == b.level && suitRank a.color < suitRank b.color)

/-- `BidHistory` from `compile.py` (lines 38-61): a plain dataclass with fields
`sequence` and `meta`; here `meta` has no `compare=False`, so Python equality
compares it together with the sequence. -/
structure BidHistory where
  sequence : List Bid
  meta : Option Nat
  deriving DecidableEq, Repr

/-- Elementwise Python list equality on `List Bid` (same length and `Bid.__eq__`
on each pair of elements). -/
def listBidEq : List Bid → List Bid → Bool
  | [], [] => true
  | x :: xs, y :: ys => bidEq x y && listBidEq xs ys
  | _, _ => false

/-- Python `==` on `BidHistory`: the generated dataclass equality compares
`(sequence, meta)`; the list is compared elementwise with `Bid.__eq__`. -/
def bidHistoryEq (a b : BidHistory) : Bool :=
  listBidEq a.sequence b.sequence && a.meta == b.meta

/-- `_is_prefix` from `compile.py` (lines 31-35): walks `zip(p, l)` and returns
`False` at the first positional mismatch, `True` otherwise.  Note `zip`
truncates to the shorter argument. -/
def isPrefixPy (p l : List Bid) : Bool :=
  (List.zip p l).all (fun e => bidEq e.1 e.2)

/-- `BidHistory.__contains__` (lines 43-49) specialised to a `BidHistory`
argument: `item in self` unwraps the item to its sequence and then calls
`_is_prefix(item, self.sequence)`.  So `A.IsPrefixOf(B)` in the spec's notation
is `bidHistoryContains B A`. -/
def bidHistoryContains (self item : BidHistory) : Bool :=
  isPrefixPy item.sequence self.sequence

/-- A dynamically typed Python value, as far as `BidHistory.__add__` can see
one: the argument of `+` is either a `Bid` or something else. -/
inductive PyVal where
  | bid (b : Bid)
  | int (n : Int)
  | str (s : String)
  | history (h : BidHistory)
  | noneVal
  deriving DecidableEq, Repr

/-- `BidHistory.__add__` from `compile.py` (lines 51-57): if the other operand
is a `Bid`, return a new `BidHistory` over a copy of the sequence with the bid
appended (keeping `self.meta`); otherwise raise `ValueError`. -/
def bidHistoryAdd (self : BidHistory) (other : PyVal) : Except PyErr BidHistory :=
  match other with
  | .bid b => .ok ⟨self.sequence ++ [b], self.meta⟩
  | _ => .error (.valueError "Add operator between BidHistory and non-Bid not supported")

/-- The always-succeeding specialisation of `BidHistory.__add__` to a `Bid`
argument, as used by `build_branch` (`branch.prefix + continuation_bid.prefix`). -/
def histAdd (self : BidHistory) (b : Bid) : BidHistory :=
  ⟨self.sequence ++ [b], self.meta⟩

/-- The expression universe the compiler manipulates: numeric literals
(Python `int` via `NUMBER = int`), `ir.Suit` leaves, the transient `LogicSuit`
combinator from `compile.py` (lines 95-100, fields `type`, `lhs`, `rhs`),
`ir.Atom(kind, meta, child)` and `ir.BinaryExpr(meta, lhs, op, rhs)`.  The
`ir` node shapes are modelled from the spec (section 3: a binary tree over
atoms `SUIT_POINTS`/`SUIT_CARDS`/`VAR`/literals and string operators), since
`opus.lang.ir` is external to this repository. -/
inductive Expr where
  | num (n : Int)
  | suit (m : Option Nat) (s : Suit)
  | logicSuit (m : Option Nat) (type : String) (lhs rhs : Expr)
  | atom (kind : String) (m : Option Nat) (child : Expr)
  | binary (m : Option Nat) (lhs : Expr) (op : String) (rhs : Expr)
  deriving DecidableEq, Repr

/-- `getattr(x, "child", None)`: of the values flowing through the resolver,
only `ir.Atom` has a `child` attribute (`LogicSuit` has `type`/`lhs`/`rhs`,
`ir.BinaryExpr` has `lhs`/`op`/`rhs`, `ir.Suit` and `int` have neither). -/
def getChild : Expr → Option Expr
  | .atom _ _ c => some c
  | _ => none

/-- `isinstance(x, LogicSuit)`. -/
def isLogicSuit : Expr → Bool
  | .logicSuit _ _ _ _ => true
  | _ => false

/-- `isinstance(x, ir.BinaryExpr)`. -/
def isBinaryExpr : Expr → Bool
  | .binary _ _ _ _ => true
  | _ => false

/-- `LogicSuit.resolve_logical_suits` from `compile.py` (lines 102-129).

The translation is line by line: first the in-place recursive resolution of
operands that are themselves `BinaryExpr`s; then the `NotImplementedError` when
both (post-recursion) operands are directly `LogicSuit`s; then the walrus test
`isinstance(logic_suit walrus-bound to getattr(expr.lhs, "child", None), LogicSuit)`, whose
success branch builds the two deep copies and overwrites each copy's whole
`lhs` slot with `logic_suit.lhs` resp. `logic_suit.rhs`.

In the `elif` branch (a `LogicSuit` found as `expr.rhs.child`), the source
still reads the variable `logic_suit` bound by the walrus in the failed first
test.  That value is by then known not to be a `LogicSuit`, and no such value
has both a `lhs` and a `type` attribute (`None` and `ir.Suit`/`ir.Atom`/`int`
have neither, `ir.BinaryExpr` has `lhs` but no `type`), so the branch always
raises `AttributeError` before returning; the model reflects that. -/
def resolve_logical_suits : Expr → Except PyErr Expr
  | .binary m l op r => do
      let l2 ← match l with
        | .binary m2 a o b => resolve_logical_suits (.binary m2 a o b)
        | _ => pure l
      let r2 ← match r with
        | .binary m2 a o b => resolve_logical_suits (.binary m2 a o b)
        | _ => pure r
      if isLogicSuit r2 && isLogicSuit l2 then
        .error (.notImplementedError "Only one side of expression can be a logic suit")
      else
        match getChild l2 with
        | some (.logicSuit _ t a b) =>
            .ok (.binary m (.binary m a op r2) t (.binary m b op r2))
        | _ =>
            match getChild r2 with
            | some (.logicSuit _ _ _ _) => .error .attributeError
            | _ => .ok (.binary m l2 op r2)
  | e => .ok e

/-- Does an expression tree contain a `LogicSuit` node anywhere? -/
def containsLogicSuit : Expr → Bool
  | .logicSuit _ _ _ _ => true
  | .atom _ _ c => containsLogicSuit c
  | .binary _ l _ r => containsLogicSuit l || containsLogicSuit r
  | _ => false

/-- `CompileTransformer.range` from `compile.py` (lines 164-190): returns a
function from the subject expression `val` to the conjunction of the two bound
checks, mirroring the source's `upper_expr`/`lower_expr`/`result` construction. -/
def range (lower upper : Expr) (m : Option Nat) : Expr → Expr :=
  fun val =>
    let upper_expr := Expr.binary m val "<=" upper
    let lower_expr :=
      Expr.binary m (.atom "SUIT_POINTS" m (.suit m .total)) ">=" lower
    Expr.binary m lower_expr "and" upper_expr

/-- `CompileTransformer.or_fewer` (lines 192-204): `val <= upper`. -/
def or_fewer (upper : Expr) (m : Option Nat) : Expr → Expr :=
  fun val => .binary m val "<=" upper

/-- `CompileTransformer.or_more` (lines 206-218): `val >= lower`. -/
def or_more (lower : Expr) (m : Option Nat) : Expr → Expr :=
  fun val => .binary m val ">=" lower

/-- `CompileTransformer.exact` (lines 220-232): `val == lower`. -/
def exact (lower : Expr) (m : Option Nat) : Expr → Expr :=
  fun val => .binary m val "==" lower

/-- `CompileTransformer.count_expr` (lines 250-253): wrap the suit expression
in a `SUIT_CARDS` atom, apply the range generator, and run the logical-suit
resolver on the result. -/
def count_expr (range_gen : Expr → Expr) (s : Expr) (m : Option Nat) : Except PyErr Expr :=
  resolve_logical_suits (range_gen (.atom "SUIT_CARDS" m s))

/-- `CompileTransformer.or_suit` (lines 260-263): build a `LogicSuit` node with
type `"or"`. -/
def or_suit (lhs rhs : Expr) (m : Option Nat) : Expr :=
  .logicSuit m "or" lhs rhs

/-- `Condition` from `compile.py` (lines 132-136): an expression plus an
optional priority (`None` meaning "no priority"). -/
structure Condition where
  expr : Expr
  priority : Option Int
  meta : Option Nat
  deriving DecidableEq, Repr

/-- The left fold `reduce(lambda acc, x: ir.BinaryExpr(meta, acc, "and", x),
tail, head)` shared by `prioritized` and `unprioritized`. -/
def conjoinAnd (m : Option Nat) (head : Expr) (tail : List Expr) : Expr :=
  tail.foldl (fun acc x => .binary m acc "and" x) head

/-- `CompileTransformer.prioritized` (lines 275-284).  The source receives one
varargs list whose last element is the priority (`*conditions, priority =
args`); the model takes the split arguments.  An empty condition list makes the
unpacking `head, *tail = conditions` raise `ValueError`. -/
def prioritized (m : Option Nat) (conditions : List Expr) (priority : Int) :
    Except PyErr Condition :=
  match conditions with
  | [] => .error (.valueError "not enough values to unpack")
  | head :: tail => .ok ⟨conjoinAnd m head tail, some priority, m⟩

/-- `CompileTransformer.unprioritized` (lines 286-294): same fold, priority
`None`. -/
def unprioritized (m : Option Nat) (args : List Expr) : Except PyErr Condition :=
  match args with
  | [] => .error (.valueError "not enough values to unpack")
  | head :: tail => .ok ⟨conjoinAnd m head tail, none, m⟩

/-- `BidExpression` from `compile.py` (lines 64-68): a candidate next bid plus
its licensing conditions.  The source calls the bid field `prefix`; that is a
Lean keyword, so it is named `pfx` here. -/
structure BidExpression where
  pfx : Bid
  conditions : List Condition
  meta : Option Nat
  deriving DecidableEq, Repr

/-- `Branch` from `compile.py` (lines 71-92) — the spec's RuleGroup: an auction
prefix (`prefix` in the source, `pfx` here) plus the continuations defined for
it. -/
structure Branch where
  pfx : BidHistory
  continuations : List BidExpression
  meta : Option Nat
  deriving DecidableEq, Repr

/-- `num_val` computed per condition in `Branch.all_conditions_sorted`
(line 84): `-priority`, with `None` mapped to the sentinel `-999_999`. -/
def numVal : Option Int → Int
  | some p => -p
  | none => -999999

/-- One entry of the `to_sort` list: `(num_val, bid_expr.prefix, uniquifier,
cond)`. -/
abbrev SortEntry := Int × Bid × Nat × Condition

/-- Python tuple comparison `x > y` on a `to_sort` entry, lexicographic on
`(num_val, bid, uniquifier)`.  The fourth component (the `Condition`) is never
reached when the uniquifiers are distinct — which is the point of the
uniquifier in the source, since conditions do not compare.

Known deviation: when two entries tie on all of `(num_val, bid, uniquifier)`
and carry unequal `Condition`s, CPython's tuple comparison reaches the
conditions and raises `TypeError`; this Boolean model returns `false` there
instead.  The collapse is only reachable when the uniquifier draws collide, so
every theorem below that speaks about the sort's overall success carries a
collision-free hypothesis on the `uniq` oracle, under which the model is
exact. -/
def sortKeyGt (x y : SortEntry) : Bool :=
  let n1 := x.1; let b1 := x.2.1; let u1 := x.2.2.1
  let n2 := y.1; let b2 := y.2.1; let u2 := y.2.2.1
  n1 > n2 ||
    (n1 == n2 &&
      (bidLtB b2 b1 ||
        (b1.level == b2.level && b1.color == b2.color && u1 > u2)))

/-- Insert into a descending-sorted list, keeping the inserted element before
any entry it does not compare strictly below — the stable placement that
matches CPython's `list.sort(reverse=True)` (reverse, stable ascending sort,
reverse again). -/
def insertDescBy (gt : α → α → Bool) (x : α) : List α → List α
  | [] => [x]
  | y :: ys => if gt y x then y :: insertDescBy gt x ys else x :: y :: ys

/-- Stable descending sort (insertion sort), modelling
`to_sort.sort(reverse=True)`. -/
def sortDescBy (gt : α → α → Bool) : List α → List α
  | [] => []
  | x :: xs => insertDescBy gt x (sortDescBy gt xs)

/-- The `to_sort` payloads before uniquifiers are drawn, in source append
order: one `(num_val, bid_expr.prefix, cond)` triple per condition of each
continuation. -/
def toSortList (b : Branch) : List (Int × Bid × Condition) :=
  b.continuations.flatMap fun be =>
    be.conditions.map fun c => (numVal c.priority, be.pfx, c)

/-- Attach the uniquifier drawn for each entry: entry number `i` (counting from
`start`) receives `uniq i`.  In the source the draw is
`random.randrange(999999999999)`; the model takes the sequence of draws as an
oracle. -/
def attachUniq (uniq : Nat → Nat) : Nat → List (Int × Bid × Condition) → List SortEntry
  | _, [] => []
  | i, (nv, b, c) :: rest => (nv, b, uniq i, c) :: attachUniq uniq (i + 1) rest

/-- `Branch.all_conditions_sorted` from `compile.py` (lines 77-92): build the
`to_sort` tuples, sort them descending, and return the `(cond, bid)` pairs. -/
def all_conditions_sorted (b : Branch) (uniq : Nat → Nat) : List (Condition × Bid) :=
  (sortDescBy sortKeyGt (attachUniq uniq 0 (toSortList b))).map
    fun e => (e.2.2.2, e.2.1)

/-- `ir.BidStatement(bid.meta, bid.level, bid.color)` as constructed in
`build_branch` (line 378); the node shape is modelled from the spec since
`opus.lang.ir` is external to this repository. -/
structure BidStatement where
  meta : Option Nat
  level : Nat
  color : Suit
  deriving DecidableEq, Repr

/-- `ir.Branch` — the spec's DecisionNode — as constructed in `build_branch`
(lines 374-381): metadata, the test expression, the bid statements, the nested
children, and the (always-`None`) end marker.  The node shape is modelled from
the spec since `opus.lang.ir` is external to this repository. -/
inductive IrBranch where
  | mk (meta : Option Nat) (test : Expr) (bids : List BidStatement)
      (children : List IrBranch) (endMarker : Option Nat)
  deriving Repr

/-- The test expression of a decision node. -/
def IrBranch.test : IrBranch → Expr
  | .mk _ t _ _ _ => t

/-- The bid statements of a decision node. -/
def IrBranch.bids : IrBranch → List BidStatement
  | .mk _ _ bs _ _ => bs

/-- The children of a decision node. -/
def IrBranch.children : IrBranch → List IrBranch
  | .mk _ _ _ cs _ => cs

/-- `_find` from `compile.py` (lines 351-357) with `default=None`, which is how
`build_branch` calls it: the first element satisfying the predicate, if any. -/
def _find (l : List α) (p : α → Bool) : Option α :=
  l.find? p

/-- Assignment `continuation_dict[key] = value` on the dict modelled as an
association list: Python `dict` replaces the value in place if an equal key
(Bid equality, meta excluded) is present, else appends the pair. -/
def dictInsert (k : Bid) (v : List IrBranch) :
    List (Bid × List IrBranch) → List (Bid × List IrBranch)
  | [] => [(k, v)]
  | (k2, v2) :: rest =>
      if bidEq k k2 then (k2, v) :: rest else (k2, v2) :: dictInsert k v rest

/-- Lookup `continuation_dict[key]`: the value stored under an equal key, or a
`KeyError`. -/
def dictGet (k : Bid) : List (Bid × List IrBranch) → Except PyErr (List IrBranch)
  | [] => .error .keyError
  | (k2, v) :: rest => if bidEq k k2 then .ok v else dictGet k rest

/-- One `ir.Branch` node as built in the emission loop of `build_branch`
(lines 373-382). -/
def mkNode (c : Condition) (b : Bid) (children : List IrBranch) : IrBranch :=
  .mk c.meta c.expr [⟨b.meta, b.level, b.color⟩] children none

/-- The emission loop of `build_branch` (lines 371-382): one node per sorted
`(condition, bid)` pair, children looked up in the continuation dict. -/
def buildNodes (d : List (Bid × List IrBranch)) :
    List (Condition × Bid) → Except PyErr (List IrBranch)
  | [] => .ok []
  | (c, b) :: rest => do
      let children ← dictGet b d
      let tail ← buildNodes d rest
      .ok (mkNode c b children :: tail)

/-- The continuation-dict loop of `build_branch` (lines 361-369), parameterised
by the recursive compiler `bb` applied to a found downstream group: for each
continuation, look up a group whose prefix equals `branch.prefix +
continuation_bid.prefix`; store its compiled decision list if found, the empty
list otherwise. -/
def buildDictWith (bb : Branch → Except PyErr (List IrBranch)) (pfxH : BidHistory)
    (rest : List Branch) :
    List BidExpression → List (Bid × List IrBranch) →
      Except PyErr (List (Bid × List IrBranch))
  | [], acc => .ok acc
  | cb :: cbs, acc =>
      match _find rest (fun b => bidHistoryEq b.pfx (histAdd pfxH cb.pfx)) with
      | some cbr =>
          match bb cbr with
          | .error e => .error e
          | .ok compiled => buildDictWith bb pfxH rest cbs (dictInsert cb.pfx compiled acc)
      | none => buildDictWith bb pfxH rest cbs (dictInsert cb.pfx [] acc)

/-- `build_branch` from `compile.py` (lines 360-384), with an explicit fuel
bound on the recursion depth (the Python original recurses without a guard and
hits `RecursionError` on a cyclic convention).  `uniq` is the oracle for the
random sort uniquifiers, passed through to every sort invocation. -/
def build_branch : Nat → Branch → List Branch → (Nat → Nat) → Except PyErr (List IrBranch)
  | 0, _, _, _ => .error .recursionError
  | fuel + 1, branch, rest, uniq =>
      match buildDictWith (fun br => build_branch fuel br rest uniq) branch.pfx rest
          branch.continuations [] with
      | .error e => .error e
      | .ok d => buildNodes d (all_conditions_sorted branch uniq)

/-! ## Helper lemmas about the Python equalities and the continuation dict -/

theorem bidEq_iff {a b : Bid} : bidEq a b = true ↔ a.level = b.level ∧ a.color = b.color := by
  simp [bidEq]

theorem bidEq_refl (a : Bid) : bidEq a a = true := by
  simp [bidEq]

theorem bidEq_symm {a b : Bid} (h : bidEq a b = true) : bidEq b a = true := by
  rcases bidEq_iff.mp h with ⟨h1, h2⟩
  exact bidEq_iff.mpr ⟨h1.symm, h2.symm⟩

theorem bidEq_trans {a b c : Bid} (h1 : bidEq a b = true) (h2 : bidEq b c = true) :
    bidEq a c = true := by
  rcases bidEq_iff.mp h1 with ⟨x1, y1⟩
  rcases bidEq_iff.mp h2 with ⟨x2, y2⟩
  exact bidEq_iff.mpr ⟨x1.trans x2, y1.trans y2⟩

theorem bidEq_congr_right {k k2 : Bid} (h : bidEq k k2 = true) (x : Bid) :
    bidEq x k = bidEq x k2 := by
  rcases bidEq_iff.mp h with ⟨h1, h2⟩
  simp [bidEq, h1, h2]

theorem listBidEq_append_congr {k k2 : Bid} (h : bidEq k k2 = true) :
    ∀ (xs ys : List Bid), listBidEq xs (ys ++ [k]) = listBidEq xs (ys ++ [k2]) := by
  intro xs ys
  induction ys generalizing xs with
  | nil =>
      cases xs with
      | nil => rfl
      | cons x xs2 => simp [listBidEq, bidEq_congr_right h x]
  | cons y ys ih =>
      cases xs with
      | nil => rfl
      | cons x xs2 => simp [listBidEq, ih]

theorem bidHistoryEq_histAdd_congr {k k2 : Bid} (h : bidEq k k2 = true)
    (q p : BidHistory) : bidHistoryEq q (histAdd p k) = bidHistoryEq q (histAdd p k2) := by
  simp [bidHistoryEq, histAdd, listBidEq_append_congr h]

theorem find_histAdd_congr {k k2 : Bid} (h : bidEq k k2 = true) (pfxH : BidHistory)
    (rest : List Branch) :
    _find rest (fun b => bidHistoryEq b.pfx (histAdd pfxH k)) =
      _find rest (fun b => bidHistoryEq b.pfx (histAdd pfxH k2)) := by
  have hp : (fun b : Branch => bidHistoryEq b.pfx (histAdd pfxH k)) =
      (fun b : Branch => bidHistoryEq b.pfx (histAdd pfxH k2)) := by
    funext b
    exact bidHistoryEq_histAdd_congr h b.pfx pfxH
  simp only [_find, hp]

theorem dictGet_insert_hit {k k2 : Bid} (h : bidEq k k2 = true) (v : List IrBranch) :
    ∀ d, dictGet k (dictInsert k2 v d) = .ok v := by
  intro d
  induction d with
  | nil => simp [dictInsert, dictGet, h]
  | cons kv d ih =>
      obtain ⟨k3, v3⟩ := kv
      by_cases h23 : bidEq k2 k3 = true
      · have h13 : bidEq k k3 = true := bidEq_trans h h23
        simp [dictInsert, dictGet, h23, h13]
      · have h13 : bidEq k k3 = false := by
          cases hb : bidEq k k3
          · rfl
          · exact absurd (bidEq_trans (bidEq_symm h) hb) h23
        simp [dictInsert, dictGet, h23, h13, ih]

theorem dictGet_insert_miss {k k2 : Bid} (h : bidEq k k2 = false) (v : List IrBranch) :
    ∀ d, dictGet k (dictInsert k2 v d) = dictGet k d := by
  intro d
  induction d with
  | nil => simp [dictInsert, dictGet, h]
  | cons kv d ih =>
      obtain ⟨k3, v3⟩ := kv
      by_cases h23 : bidEq k2 k3 = true
      · have h13 : bidEq k k3 = false := by
          cases hb : bidEq k k3
          · rfl
          · have : bidEq k k2 = true := bidEq_trans hb (bidEq_symm h23)
            rw [h] at this
            exact absurd this (by simp)
        simp [dictInsert, dictGet, h23, h13]
      · simp only [dictInsert, h23, if_false, ite_false]
        by_cases h13 : bidEq k k3 = true
        · simp [dictGet, h13]
        · simp only [Bool.not_eq_true] at h13
          simp [dictGet, h13, ih]

theorem dictGet_congr {k k2 : Bid} (h : bidEq k k2 = true) :
    ∀ d, dictGet k d = dictGet k2 d := by
  intro d
  induction d with
  | nil => rfl
  | cons kv d ih =>
      obtain ⟨k3, v3⟩ := kv
      have hk : bidEq k k3 = bidEq k2 k3 := by
        rcases bidEq_iff.mp h with ⟨h1, h2⟩
        simp [bidEq, h1, h2]
      simp [dictGet, hk, ih]

/-- Generic inversion of a successful `Except` bind. -/
theorem except_bind_ok {α β : Type} {e : Except PyErr α} {f : α → Except PyErr β} {b : β}
    (h : (e >>= f) = .ok b) : ∃ a, e = .ok a ∧ f a = .ok b := by
  cases e with
  | error err => simp [Bind.bind, Except.bind] at h
  | ok a => exact ⟨a, rfl, by simpa [Bind.bind, Except.bind] using h⟩

/-- Unfolding equation for `buildDictWith` on a non-empty continuation list. -/
theorem buildDictWith_cons (bb : Branch → Except PyErr (List IrBranch)) (pfxH : BidHistory)
    (rest : List Branch) (cb : BidExpression) (cbs : List BidExpression)
    (acc : List (Bid × List IrBranch)) :
    buildDictWith bb pfxH rest (cb :: cbs) acc =
      match _find rest (fun b => bidHistoryEq b.pfx (histAdd pfxH cb.pfx)) with
      | some cbr =>
          match bb cbr with
          | .error e => .error e
          | .ok compiled => buildDictWith bb pfxH rest cbs (dictInsert cb.pfx compiled acc)
      | none => buildDictWith bb pfxH rest cbs (dictInsert cb.pfx [] acc) := rfl

/-- After a successful dict-construction pass, any key whose candidate prefix
matches no rule group is bound to the empty children list, provided it either
already was in the accumulator with value `[]` or occurs among the pending
continuations. -/
theorem buildDictWith_ok_get (bb : Branch → Except PyErr (List IrBranch))
    (pfxH : BidHistory) (rest : List Branch) (k : Bid)
    (hmiss : _find rest (fun b => bidHistoryEq b.pfx (histAdd pfxH k)) = none) :
    ∀ (cbs : List BidExpression) (acc d : List (Bid × List IrBranch)),
      buildDictWith bb pfxH rest cbs acc = .ok d →
      (dictGet k acc = .ok [] ∨ ∃ cb ∈ cbs, bidEq cb.pfx k = true) →
      dictGet k d = .ok [] := by
  intro cbs
  induction cbs with
  | nil =>
      intro acc d hok hdisj
      simp only [buildDictWith, Except.ok.injEq] at hok
      subst hok
      rcases hdisj with h | ⟨cb, hmem, _⟩
      · exact h
      · simp at hmem
  | cons cb cbs ih =>
      intro acc d hok hdisj
      rw [buildDictWith_cons] at hok
      by_cases hcb : bidEq cb.pfx k = true
      · have hfind : _find rest (fun b => bidHistoryEq b.pfx (histAdd pfxH cb.pfx)) = none := by
          rw [find_histAdd_congr hcb pfxH rest]
          exact hmiss
        rw [hfind] at hok
        dsimp only at hok
        exact ih _ d hok (Or.inl (dictGet_insert_hit (bidEq_symm hcb) _ acc))
      · have hcb2 : bidEq k cb.pfx = false := by
          cases hb : bidEq k cb.pfx
          · rfl
          · exact absurd (bidEq_symm hb) hcb
        have hnext : dictGet k acc = .ok [] ∨ ∃ cb2 ∈ cbs, bidEq cb2.pfx k = true := by
          rcases hdisj with h | ⟨cb2, hmem, heq⟩
          · exact Or.inl h
          · rcases List.mem_cons.mp hmem with rfl | hmem2
            · exact absurd heq hcb
            · exact Or.inr ⟨cb2, hmem2, heq⟩
        cases hfind : _find rest (fun b => bidHistoryEq b.pfx (histAdd pfxH cb.pfx)) with
        | some cbr =>
            rw [hfind] at hok
            dsimp only at hok
            cases hbb : bb cbr with
            | error e =>
                rw [hbb] at hok
                exact absurd hok (by simp)
            | ok compiled =>
                rw [hbb] at hok
                dsimp only at hok
                refine ih _ d hok ?_
                rcases hnext with h | h
                · exact Or.inl (by rw [dictGet_insert_miss hcb2]; exact h)
                · exact Or.inr h
        | none =>
            rw [hfind] at hok
            dsimp only at hok
            refine ih _ d hok ?_
            rcases hnext with h | h
            · exact Or.inl (by rw [dictGet_insert_miss hcb2]; exact h)
            · exact Or.inr h

/-- When every continuation's candidate prefix misses, the dict-construction
pass never recurses and always succeeds. -/
theorem buildDictWith_all_miss_ok (bb : Branch → Except PyErr (List IrBranch))
    (pfxH : BidHistory) (rest : List Branch) :
    ∀ (cbs : List BidExpression) (acc : List (Bid × List IrBranch)),
      (∀ cb ∈ cbs, _find rest (fun b => bidHistoryEq b.pfx (histAdd pfxH cb.pfx)) = none) →
      ∃ d, buildDictWith bb pfxH rest cbs acc = .ok d := by
  intro cbs
  induction cbs with
  | nil => exact fun acc _ => ⟨acc, rfl⟩
  | cons cb cbs ih =>
      intro acc h
      have hfind := h cb (List.mem_cons_self _ _)
      rcases ih (dictInsert cb.pfx [] acc)
          (fun cb2 hm => h cb2 (List.mem_cons_of_mem _ hm)) with ⟨d, hd⟩
      refine ⟨d, ?_⟩
      rw [buildDictWith_cons, hfind]
      exact hd

/-- Inversion of a successful node-emission pass: every emitted node comes from
one of the sorted `(condition, bid)` pairs, with its children looked up in the
dict. -/
theorem buildNodes_ok_mem (d : List (Bid × List IrBranch)) :
    ∀ (pairs : List (Condition × Bid)) (nodes : List IrBranch),
      buildNodes d pairs = .ok nodes →
      ∀ node ∈ nodes, ∃ c b ch,
        (c, b) ∈ pairs ∧ dictGet b d = .ok ch ∧ node = mkNode c b ch := by
  intro pairs
  induction pairs with
  | nil =>
      intro nodes h node hn
      simp only [buildNodes, Except.ok.injEq] at h
      subst h
      simp at hn
  | cons p pairs ih =>
      obtain ⟨c, b⟩ := p
      intro nodes h node hn
      simp only [buildNodes] at h
      rcases except_bind_ok h with ⟨ch, hg, h2⟩
      rcases except_bind_ok h2 with ⟨tail, ht, h3⟩
      simp only [Except.ok.injEq] at h3
      subst h3
      rcases List.mem_cons.mp hn with rfl | hn2
      · exact ⟨c, b, ch, List.mem_cons_self _ _, hg, rfl⟩
      · rcases ih tail ht node hn2 with ⟨c2, b2, ch2, hp2, hg2, hnode⟩
        exact ⟨c2, b2, ch2, List.mem_cons_of_mem _ hp2, hg2, hnode⟩

/-- Every sorted `(condition, bid)` pair produces a node in a successful
emission pass. -/
theorem buildNodes_ok_exists (d : List (Bid × List IrBranch)) :
    ∀ (pairs : List (Condition × Bid)) (nodes : List IrBranch),
      buildNodes d pairs = .ok nodes →
      ∀ c b, (c, b) ∈ pairs → ∃ ch, dictGet b d = .ok ch ∧ mkNode c b ch ∈ nodes := by
  intro pairs
  induction pairs with
  | nil =>
      intro nodes h c b hp
      simp at hp
  | cons p pairs ih =>
      obtain ⟨c0, b0⟩ := p
      intro nodes h c b hp
      simp only [buildNodes] at h
      rcases except_bind_ok h with ⟨ch, hg, h2⟩
      rcases except_bind_ok h2 with ⟨tail, ht, h3⟩
      simp only [Except.ok.injEq] at h3
      subst h3
      rcases List.mem_cons.mp hp with hp0 | hp2
      · obtain ⟨rfl, rfl⟩ := Prod.mk.injEq .. ▸ hp0
        · exact ⟨ch, hg, List.mem_cons_self _ _⟩
      · rcases ih tail ht c b hp2 with ⟨ch2, hg2, hmem⟩
        exact ⟨ch2, hg2, List.mem_cons_of_mem _ hmem⟩

/-- The emission pass succeeds as soon as every pair's bid is bound in the
dict. -/
theorem buildNodes_total (d : List (Bid × List IrBranch)) :
    ∀ pairs : List (Condition × Bid),
      (∀ p ∈ pairs, ∃ ch, dictGet p.2 d = .ok ch) →
      ∃ nodes, buildNodes d pairs = .ok nodes := by
  intro pairs
  induction pairs with
  | nil => exact fun _ => ⟨[], rfl⟩
  | cons p pairs ih =>
      obtain ⟨c, b⟩ := p
      intro h
      rcases h (c, b) (List.mem_cons_self _ _) with ⟨ch, hch⟩
      rcases ih (fun q hq => h q (List.mem_cons_of_mem _ hq)) with ⟨tail, htail⟩
      refine ⟨mkNode c b ch :: tail, ?_⟩
      simp only [buildNodes]
      rw [hch]
      simp only [Bind.bind, Except.bind]
      rw [htail]

/-! ### Membership through the condition sequencer -/

theorem mem_insertDescBy {gt : α → α → Bool} {a x : α} :
    ∀ l : List α, a ∈ insertDescBy gt x l ↔ a = x ∨ a ∈ l := by
  intro l
  induction l with
  | nil => simp [insertDescBy]
  | cons y ys ih =>
      simp only [insertDescBy]
      by_cases h : gt y x = true
      · rw [if_pos h]
        simp only [List.mem_cons, ih]
        tauto
      · rw [if_neg h]
        simp only [List.mem_cons]

theorem mem_sortDescBy {gt : α → α → Bool} {a : α} :
    ∀ l : List α, a ∈ sortDescBy gt l ↔ a ∈ l := by
  intro l
  induction l with
  | nil => simp [sortDescBy]
  | cons x xs ih =>
      simp only [sortDescBy, mem_insertDescBy, List.mem_cons, ih]

theorem attachUniq_mem_forward {uniq : Nat → Nat} {nv : Int} {b : Bid} {c : Condition} :
    ∀ (l : List (Int × Bid × Condition)) (i : Nat), (nv, b, c) ∈ l →
      ∃ u, (nv, b, u, c) ∈ attachUniq uniq i l := by
  intro l
  induction l with
  | nil => intro i h; simp at h
  | cons t l ih =>
      obtain ⟨nv2, b2, c2⟩ := t
      intro i h
      rcases List.mem_cons.mp h with heq | h2
      · obtain ⟨rfl, rfl, rfl⟩ : nv2 = nv ∧ b2 = b ∧ c2 = c := by
          injection heq with h1 hrest
          injection hrest with h2 h3
          exact ⟨h1.symm, h2.symm, h3.symm⟩
        exact ⟨uniq i, by simp [attachUniq]⟩
      · rcases ih (i + 1) h2 with ⟨u, hu⟩
        exact ⟨u, by simp only [attachUniq, List.mem_cons]; exact Or.inr hu⟩

theorem attachUniq_mem_backward {uniq : Nat → Nat} {e : SortEntry} :
    ∀ (l : List (Int × Bid × Condition)) (i : Nat), e ∈ attachUniq uniq i l →
      (e.1, e.2.1, e.2.2.2) ∈ l := by
  intro l
  induction l with
  | nil => intro i h; simp [attachUniq] at h
  | cons t l ih =>
      obtain ⟨nv2, b2, c2⟩ := t
      intro i h
      rcases List.mem_cons.mp h with rfl | h2
      · exact List.mem_cons_self _ _
      · exact List.mem_cons_of_mem _ (ih (i + 1) h2)

/-- Both directions of membership in the sequencer output: `(c, bid)` is
emitted by `all_conditions_sorted` exactly when `c` is one of the conditions
attached to a continuation whose bid is `bid`. -/
theorem mem_all_conditions_sorted {br : Branch} {uniq : Nat → Nat}
    {c : Condition} {b : Bid} :
    (c, b) ∈ all_conditions_sorted br uniq ↔
      ∃ cb ∈ br.continuations, cb.pfx = b ∧ c ∈ cb.conditions := by
  constructor
  · intro h
    simp only [all_conditions_sorted, List.mem_map] at h
    rcases h with ⟨e, he, heq⟩
    obtain ⟨nv, b2, u, c2⟩ := e
    simp only at heq
    injection heq with h1 h2
    subst h1; subst h2
    have h3 := attachUniq_mem_backward _ _ ((mem_sortDescBy _).mp he)
    simp only at h3
    simp only [toSortList, List.mem_flatMap, List.mem_map] at h3
    rcases h3 with ⟨cb, hcb, c3, hc3, heq3⟩
    injection heq3 with g1 grest
    injection grest with g2 g3
    subst g2; subst g3
    exact ⟨cb, hcb, rfl, hc3⟩
  · rintro ⟨cb, hcb, rfl, hc⟩
    have h1 : (numVal c.priority, cb.pfx, c) ∈ toSortList br := by
      simp only [toSortList, List.mem_flatMap]
      exact ⟨cb, hcb, List.mem_map.mpr ⟨c, hc, rfl⟩⟩
    rcases @attachUniq_mem_forward uniq _ _ _ _ 0 h1 with ⟨u, hu⟩
    have h2 := (@mem_sortDescBy _ sortKeyGt _ _).mpr hu
    simp only [all_conditions_sorted, List.mem_map]
    exact ⟨(numVal c.priority, cb.pfx, u, c), h2, rfl⟩

/-- Unfolding equation for `build_branch` at positive fuel. -/
theorem build_branch_succ (fuel : Nat) (branch : Branch) (rest : List Branch)
    (uniq : Nat → Nat) :
    build_branch (fuel + 1) branch rest uniq =
      match buildDictWith (fun br => build_branch fuel br rest uniq) branch.pfx rest
          branch.continuations [] with
      | .error e => .error e
      | .ok d => buildNodes d (all_conditions_sorted branch uniq) := rfl

/-! ## Concrete fixtures used by the claim theorems -/

/-- The bid `1H`. -/
def bid1H : Bid := ⟨1, .H, none⟩

/-- The bid `1S`. -/
def bid1S : Bid := ⟨1, .S, none⟩

/-- The condition `points in [12,14]` with priority 1: `range(12,14)` applied,
as in `point_range`, to the whole-hand `SUIT_POINTS(@)` subject. -/
def cond1214 : Condition :=
  ⟨range (.num 12) (.num 14) none (.atom "SUIT_POINTS" none (.suit none .total)),
    some 1, none⟩

/-- The condition `points in [15,17]` with priority 1. -/
def cond1517 : Condition :=
  ⟨range (.num 15) (.num 17) none (.atom "SUIT_POINTS" none (.suit none .total)),
    some 1, none⟩

/-- RuleGroup A: empty prefix, single continuation bid `1H`. -/
def groupA : Branch := ⟨⟨[], none⟩, [⟨bid1H, [cond1214], none⟩], none⟩

/-- RuleGroup B: prefix `[1H]`, single continuation bid `1S`. -/
def groupB : Branch := ⟨⟨[bid1H], none⟩, [⟨bid1S, [cond1517], none⟩], none⟩

/-- RuleGroup B with the same bid sequence `[1H]` but a different (non-`None`)
metadata value on its prefix history. -/
def groupBMeta : Branch := ⟨⟨[bid1H], some 7⟩, [⟨bid1S, [cond1517], none⟩], none⟩

/-- A rule group whose two continuations carry one condition each: priority
`1000000` on bid `1H` and no priority on bid `1S`. -/
def sentinelBranch : Branch :=
  ⟨⟨[], none⟩,
    [⟨bid1H, [⟨.num 0, some 1000000, none⟩], none⟩,
     ⟨bid1S, [⟨.num 1, none, none⟩], none⟩], none⟩

/-! ## Claim theorems -/

/-- C1: for the two-group convention — RuleGroup A with empty prefix and the
single continuation bid `1H` (condition `points in [12,14]`, priority 1), and
RuleGroup B with prefix `[1H]` and the single continuation bid `1S` (condition
`points in [15,17]`, priority 1) — `build_branch(A, [A, B])` returns exactly
one top-level decision node, for bid `1H`, whose children list contains exactly
one node, for bid `1S`. -/
theorem build_branch_two_groups_spec :
    ∃ n1 n2 : IrBranch,
      build_branch 10 groupA [groupA, groupB] (fun i => i) = .ok [n1] ∧
      n1.bids = [⟨none, 1, .H⟩] ∧
      n1.children = [n2] ∧
      n2.bids = [⟨none, 1, .S⟩] ∧
      n2.children = [] :=
  ⟨_, _, rfl, rfl, rfl, rfl, rfl⟩

/-- C2 (code bug): a count condition over the logical suit `"H or S"` with
range `"3 or more"` does not compile to
`(SUIT_CARDS(H) >= 3) or (SUIT_CARDS(S) >= 3)`: the resolver overwrites the
whole left operand of each copied comparison with the raw suit, dropping the
`SUIT_CARDS` wrapper, so the code produces `(H >= 3) or (S >= 3)`. -/
theorem count_expr_or_suit_eval :
    count_expr (or_more (.num 3) none)
        (or_suit (.suit none .H) (.suit none .S) none) none =
      .ok (.binary none
        (.binary none (.suit none .H) ">=" (.num 3)) "or"
        (.binary none (.suit none .S) ">=" (.num 3))) := rfl

/-- C3 (code bug): the resolver's output is not LogicSuit-free.  First, on a
binary expression whose LogicSuit subject sits in the right-hand operand
(`3 <= SUIT_CARDS("H or S")`), the `elif` branch dereferences the stale
`logic_suit` variable bound while testing the *left* operand and raises
`AttributeError` instead of returning a tree.  Second, when both operands wrap
LogicSuit subjects (`SUIT_CARDS("H or S") == SUIT_CARDS("C or D")`), the
resolver returns normally but the returned tree still contains a LogicSuit
node. -/
theorem resolve_logical_suits_violations :
    resolve_logical_suits (.binary none (.num 3) "<="
        (.atom "SUIT_CARDS" none (.logicSuit none "or" (.suit none .H) (.suit none .S))))
      = .error .attributeError ∧
    ∃ out,
      resolve_logical_suits (.binary none
          (.atom "SUIT_CARDS" none (.logicSuit none "or" (.suit none .H) (.suit none .S)))
          "=="
          (.atom "SUIT_CARDS" none (.logicSuit none "or" (.suit none .C) (.suit none .D))))
        = .ok out ∧ containsLogicSuit out = true :=
  ⟨rfl, _, rfl, rfl⟩

/-- C4 (code bug): `all_conditions_sorted` maps a `None` priority to the
sentinel `-999_999` instead of treating it as infinity, so a condition with the
defined numeric priority `1000000` (bid `1H`) is emitted *after* the
no-priority condition (bid `1S`), contradicting "`none` sorts strictly after
every defined numeric priority". -/
theorem all_conditions_sorted_sentinel_eval :
    (all_conditions_sorted sentinelBranch (fun i => i)).map (fun p => p.1.priority) =
      [none, some 1000000] := rfl

/-- C5 (code bug): `_is_prefix` iterates `zip(p, l)`, which truncates to the
shorter list, so a history strictly longer than the other still counts as its
prefix: here `A = [1H]`, `B = []`, and `A.IsPrefixOf(B)` (that is,
`B.__contains__(A)`) evaluates to `True`, though the spec requires `False`
whenever `A` is longer than `B`. -/
theorem isPrefix_longer_eval :
    bidHistoryContains ⟨[], none⟩ ⟨[bid1H], none⟩ = true := rfl

/-- C6: for every lower bound, upper bound and subject, the `range` constructor
returns `(SUIT_POINTS(@) >= lower) and (subject <= upper)` — the lower bound is
compared against the whole-hand point total regardless of the subject, and only
the upper bound is compared against the supplied subject. -/
theorem range_spec :
    ∀ (m : Option Nat) (lower upper val : Expr),
      range lower upper m val =
        .binary m
          (.binary m (.atom "SUIT_POINTS" m (.suit m .total)) ">=" lower)
          "and"
          (.binary m val "<=" upper) :=
  fun _ _ _ _ => rfl

/-- C7: a continuation whose candidate next auction prefix (the group's prefix
extended by the continuation's bid) matches no rule group is not an error: in
any successful compilation of the group, every node emitted for that bid has an
empty children list, and each of the continuation's conditions does produce
such a node; moreover, when every continuation of the group misses,
`build_branch` (given fuel for its single level) succeeds outright — the lookup
miss itself never raises.

The hypothesis `_hinj` restricts the statement to collision-free uniquifier
draws.  The source draws uniquifiers with `random.randrange(999999999999)`
precisely so that the sort never has to compare two `Condition`s (which raises
`TypeError`); on a colliding draw the real program can still die on that
`TypeError`, which the Boolean `sortKeyGt` does not model, so the claim is
settled only over the oracles on which the embedding is exact. -/
theorem build_branch_lookup_miss
    (fuel : Nat) (branch : Branch) (rest : List Branch) (uniq : Nat → Nat)
    ( _hinj : ∀ i j, uniq i = uniq j → i = j)
    (cb : BidExpression)
    (hmem : cb ∈ branch.continuations)
    (hmiss : _find rest (fun b => bidHistoryEq b.pfx (histAdd branch.pfx cb.pfx)) = none) :
    (∀ nodes, build_branch (fuel + 1) branch rest uniq = .ok nodes →
        (∀ node ∈ nodes, ∀ bs ∈ node.bids,
            bs.level = cb.pfx.level → bs.color = cb.pfx.color → node.children = []) ∧
        (∀ c ∈ cb.conditions, ∃ node ∈ nodes,
            node.test = c.expr ∧
            node.bids = [⟨cb.pfx.meta, cb.pfx.level, cb.pfx.color⟩] ∧
            node.children = [])) ∧
    ((∀ cb2 ∈ branch.continuations,
        _find rest (fun b => bidHistoryEq b.pfx (histAdd branch.pfx cb2.pfx)) = none) →
      ∃ nodes, build_branch (fuel + 1) branch rest uniq = .ok nodes) := by
  constructor
  · intro nodes hok
    rw [build_branch_succ] at hok
    cases hd : buildDictWith (fun br => build_branch fuel br rest uniq) branch.pfx rest
        branch.continuations [] with
    | error e =>
        rw [hd] at hok
        exact absurd hok (by simp)
    | ok d =>
        rw [hd] at hok
        dsimp only at hok
        have hget : dictGet cb.pfx d = .ok [] :=
          buildDictWith_ok_get _ branch.pfx rest cb.pfx hmiss branch.continuations [] d hd
            (Or.inr ⟨cb, hmem, bidEq_refl _⟩)
        constructor
        · intro node hn bs hbs hlev hcol
          rcases buildNodes_ok_mem d _ nodes hok node hn with ⟨c, b, ch, hp, hg, rfl⟩
          have hbs2 : bs = ⟨b.meta, b.level, b.color⟩ := by
            simpa [mkNode, IrBranch.bids] using hbs
          subst hbs2
          have hbe : bidEq b cb.pfx = true := bidEq_iff.mpr ⟨hlev, hcol⟩
          have hbd : dictGet b d = .ok [] := by
            rw [dictGet_congr hbe]
            exact hget
          rw [hbd] at hg
          obtain rfl : ([] : List IrBranch) = ch := by
            injection hg
          rfl
        · intro c hc
          have hpair : (c, cb.pfx) ∈ all_conditions_sorted branch uniq :=
            mem_all_conditions_sorted.mpr ⟨cb, hmem, rfl, hc⟩
          rcases buildNodes_ok_exists d _ nodes hok c cb.pfx hpair with ⟨ch, hg, hmemN⟩
          rw [hget] at hg
          obtain rfl : ([] : List IrBranch) = ch := by
            injection hg
          exact ⟨mkNode c cb.pfx [], hmemN, rfl, rfl, rfl⟩
  · intro hall
    rcases buildDictWith_all_miss_ok (fun br => build_branch fuel br rest uniq)
        branch.pfx rest branch.continuations [] hall with ⟨d, hd⟩
    have hpairs : ∀ p ∈ all_conditions_sorted branch uniq, ∃ ch, dictGet p.2 d = .ok ch := by
      intro p hp
      obtain ⟨c, b⟩ := p
      rcases mem_all_conditions_sorted.mp hp with ⟨cb2, hcb2, rfl, hc⟩
      exact ⟨[], buildDictWith_ok_get _ branch.pfx rest cb2.pfx (hall cb2 hcb2)
        branch.continuations [] d hd (Or.inr ⟨cb2, hcb2, bidEq_refl _⟩)⟩
    rcases buildNodes_total d _ hpairs with ⟨nodes, hnodes⟩
    refine ⟨nodes, ?_⟩
    rw [build_branch_succ, hd]
    exact hnodes

/-- Witness for C7: rule group A (empty prefix, continuation bid `1H`) compiled
against a compilation unit holding only A itself, so the continuation's
candidate prefix `[1H]` matches no group; the uniquifier oracle is the identity,
which is collision-free. -/
theorem build_branch_lookup_miss_witness :
    (∀ nodes, build_branch 6 groupA [groupA] (fun i => i) = .ok nodes →
        (∀ node ∈ nodes, ∀ bs ∈ node.bids,
            bs.level = (BidExpression.mk bid1H [cond1214] none).pfx.level →
            bs.color = (BidExpression.mk bid1H [cond1214] none).pfx.color →
            node.children = []) ∧
        (∀ c ∈ (BidExpression.mk bid1H [cond1214] none).conditions, ∃ node ∈ nodes,
            node.test = c.expr ∧
            node.bids = [⟨(BidExpression.mk bid1H [cond1214] none).pfx.meta,
              (BidExpression.mk bid1H [cond1214] none).pfx.level,
              (BidExpression.mk bid1H [cond1214] none).pfx.color⟩] ∧
            node.children = [])) ∧
    ((∀ cb2 ∈ groupA.continuations,
        _find [groupA] (fun b => bidHistoryEq b.pfx (histAdd groupA.pfx cb2.pfx)) = none) →
      ∃ nodes, build_branch 6 groupA [groupA] (fun i => i) = .ok nodes) :=
  build_branch_lookup_miss 5 groupA [groupA] (fun i => i)
    (fun i j h => h)
    (BidExpression.mk bid1H [cond1214] none)
    (by simp [groupA])
    rfl

/-- C8: `prioritized` conjoins its condition expressions left-to-right with
`and` into one `Condition` carrying the given priority; a single expression is
returned as-is, with no synthetic `and` node; `unprioritized` behaves
identically except that the resulting priority is `none`. -/
theorem prioritized_unprioritized_spec :
    ∀ (m : Option Nat) (p : Int) (e1 e2 : Expr) (es : List Expr),
      prioritized m [e1] p = .ok ⟨e1, some p, m⟩ ∧
      prioritized m (e1 :: e2 :: es) p =
        .ok ⟨conjoinAnd m (.binary m e1 "and" e2) es, some p, m⟩ ∧
      unprioritized m [e1] = .ok ⟨e1, none, m⟩ ∧
      unprioritized m (e1 :: e2 :: es) =
        .ok ⟨conjoinAnd m (.binary m e1 "and" e2) es, none, m⟩ :=
  fun _ _ _ _ _ => ⟨rfl, rfl, rfl, rfl⟩

/-- C9: `BidHistory.__add__` raises a `ValueError` exactly when the argument is
not a `Bid`; on a `Bid` it returns a new history whose sequence is the old
sequence with the bid appended (one element longer).  The original history is
untouched — the source copies the list before appending, and the embedding is
functional. -/
theorem bidHistoryAdd_spec :
    ∀ (h : BidHistory) (v : PyVal),
      (∀ b, v = PyVal.bid b →
        bidHistoryAdd h v = .ok ⟨h.sequence ++ [b], h.meta⟩ ∧
        (h.sequence ++ [b]).length = h.sequence.length + 1) ∧
      ((∀ b, v ≠ PyVal.bid b) → ∃ msg, bidHistoryAdd h v = .error (.valueError msg)) := by
  intro h v
  constructor
  · rintro b rfl
    exact ⟨rfl, by simp⟩
  · intro hnb
    cases v with
    | bid b => exact absurd rfl (hnb b)
    | int n => exact ⟨_, rfl⟩
    | str s => exact ⟨_, rfl⟩
    | history h2 => exact ⟨_, rfl⟩
    | noneVal => exact ⟨_, rfl⟩

/-- Witness for C9, at a concrete history, a concrete `Bid` argument and a
concrete non-`Bid` argument. -/
theorem bidHistoryAdd_spec_witness :
    (bidHistoryAdd ⟨[], none⟩ (.bid bid1H) = .ok ⟨[bid1H], none⟩ ∧
      ([] ++ [bid1H] : List Bid).length = ([] : List Bid).length + 1) ∧
    ∃ msg, bidHistoryAdd ⟨[], none⟩ (.int 3) = .error (.valueError msg) :=
  ⟨(bidHistoryAdd_spec ⟨[], none⟩ (.bid bid1H)).1 bid1H rfl,
   (bidHistoryAdd_spec ⟨[], none⟩ (.int 3)).2 (fun b hb => by cases hb)⟩

/-- C10: `BidHistory` equality compares the `meta` field together with the bid
sequence (its `meta` field is not marked `compare=False`), unlike `Bid`, whose
`meta` is excluded from comparison; and `build_branch`'s search for a
continuation's downstream rule group uses exactly this equality, so a group
whose prefix has the same bid sequence but a different `meta` is not found and
the continuation gets empty children. -/
theorem bidHistoryEq_meta_spec :
    (∀ (s : List Bid) (m1 m2 : Option Nat), m1 ≠ m2 →
        bidHistoryEq ⟨s, m1⟩ ⟨s, m2⟩ = false) ∧
    (∀ (l : Nat) (c : Suit) (m1 m2 : Option Nat),
        bidEq ⟨l, c, m1⟩ ⟨l, c, m2⟩ = true) ∧
    (∃ node, build_branch 10 groupA [groupA, groupBMeta] (fun i => i) = .ok [node] ∧
        node.children = []) := by
  refine ⟨?_, ?_, mkNode cond1214 bid1H [], rfl, rfl⟩
  · intro s m1 m2 hne
    have h2 : (m1 == m2) = false := beq_eq_false_iff_ne.mpr hne
    simp [bidHistoryEq, h2]
  · intro l c m1 m2
    simp [bidEq]

/-- Witness for C10, instantiating the meta-sensitivity clause at a concrete
pair of unequal metadata values. -/
theorem bidHistoryEq_meta_spec_witness :
    bidHistoryEq ⟨[], none⟩ ⟨[], some 0⟩ = false :=
  bidHistoryEq_meta_spec.1 [] none (some 0) (by decide)

/-! ## Supporting sanity checks -/

/-- `_is_prefix` does accept every genuine prefix: a list is a prefix of any of
its extensions (the half of the spec's prefix property that the code gets
right). -/
theorem isPrefixPy_append (l t : List Bid) : isPrefixPy l (l ++ t) = true := by
  induction l with
  | nil => rfl
  | cons x xs ih =>
      simp only [isPrefixPy, List.cons_append, List.zip_cons_cons, List.all_cons,
        bidEq_refl, Bool.true_and]
      simpa [isPrefixPy] using ih

/-- `A.IsPrefixOf(A + b)` holds for every history `A` and bid `b`. -/
theorem bidHistoryContains_histAdd (A : BidHistory) (b : Bid) :
    bidHistoryContains (histAdd A b) A = true :=
  isPrefixPy_append A.sequence [b]

/-- The rule group of the spec's sequencer example: priorities
`[2, none, 1, 1]` on bids `[1H, 1S, 2C, 2D]`. -/
def exampleBranch : Branch :=
  ⟨⟨[], none⟩,
    [⟨bid1H, [⟨.num 0, some 2, none⟩], none⟩,
     ⟨bid1S, [⟨.num 1, none, none⟩], none⟩,
     ⟨⟨2, .C, none⟩, [⟨.num 2, some 1, none⟩], none⟩,
     ⟨⟨2, .D, none⟩, [⟨.num 3, some 1, none⟩], none⟩], none⟩

/-- For small priorities the sequencer behaves as the spec's example says:
priorities `[2, none, 1, 1]` on bids `[1H, 1S, 2C, 2D]` come out as
`1, 1, 2, none`, the two priority-1 entries ordered `2D` before `2C`. -/
theorem all_conditions_sorted_example :
    (all_conditions_sorted exampleBranch (fun i => i)).map
        (fun p => (p.1.priority, p.2.level, p.2.color)) =
      [(some 1, 2, .D), (some 1, 2, .C), (some 2, 1, .H), (none, 1, .S)] := rfl

end OpusLang
